import Mathlib

/-!
Verification of the FileGuard client-side envelope-encryption pipeline.

The frontend crypto core (`frontend/src/lib/crypto.ts`) wraps the browser
WebCrypto API.  Byte buffers (`ArrayBuffer` / `Uint8Array`) are embedded as
`List Nat` whose entries are bytes (`< 256` where it matters).  The opaque
`CryptoKey` handles are embedded as records holding raw key material.

WebCrypto itself is not part of the repository; its AES-GCM and PBKDF2
primitives are modelled here by concrete executable functions that exhibit the
documented interface behaviour the repository code relies on:
  * AES-GCM `encrypt` returns `ciphertext || tag` with a fixed 16-byte tag;
    `decrypt` recomputes the tag over the received ciphertext and fails when
    it does not match or when the input is shorter than the tag.
  * AES-GCM operations whose algorithm descriptor is the bare string
    `'AES-GCM'` (no `iv` member) are rejected: `AesGcmParams` has a required
    `iv` member, so algorithm normalization throws a `TypeError`.
  * PBKDF2-SHA-256 derivation is deterministic, and distinct
    (password, salt) inputs are modelled as yielding distinct key material
    (the overwhelming-probability collision-freeness of the real KDF).
-/

namespace FileGuard

instance {ε α : Type} [DecidableEq ε] [DecidableEq α] : DecidableEq (Except ε α) := fun x y =>
  match x, y with
  | .ok a, .ok b =>
    if h : a = b then isTrue (congrArg Except.ok h)
    else isFalse (fun hc => h (Except.ok.inj hc))
  | .error a, .error b =>
    if h : a = b then isTrue (congrArg Except.error h)
    else isFalse (fun hc => h (Except.error.inj hc))
  | .ok _, .error _ => isFalse (fun hc => Except.noConfusion hc)
  | .error _, .ok _ => isFalse (fun hc => Except.noConfusion hc)

/-- Little-endian byte-list to natural number. -/
def fromBytesLE : List Nat → Nat
  | [] => 0
  | b :: bs => b + 256 * fromBytesLE bs

/-- Natural number to a fixed-width little-endian byte list. -/
def toBytesLE : Nat → Nat → List Nat
  | 0, _ => []
  | n + 1, v => v % 256 :: toBytesLE n (v / 256)

/-- XOR-fold of a byte list. -/
def xorFold (l : List Nat) : Nat := l.foldr (fun a b => a ^^^ b) 0

/-- AES-GCM nonce length used by the core (bytes). -/
def NONCE_LEN : Nat := 12

/-- AES-GCM authentication-tag length (bytes). -/
def TAG_LEN : Nat := 16

/-- Model keystream byte `i` of AES-CTR inside GCM for (key, iv). -/
def ksByte (key iv : List Nat) (i : Nat) : Nat :=
  ((key.sum + 1) * 131 + (iv.sum + 1) * 31 + i * 7) % 256

/-- XOR a byte list against the keystream, starting at keystream index `i`. -/
def xorKS (key iv : List Nat) : Nat → List Nat → List Nat
  | _, [] => []
  | i, x :: xs => (x ^^^ ksByte key iv i) :: xorKS key iv (i + 1) xs

/-- Model GCM authentication tag over (key, iv, ciphertext), as a natural
number below `2 ^ 128`.  The iv contributes the low 96 bits and a key/data
checksum the high 32 bits, so distinct ivs and single-byte ciphertext changes
yield distinct tags, reflecting GCM's tamper detection. -/
def tagNat (key iv ct : List Nat) : Nat :=
  fromBytesLE iv % 2 ^ 96 + 2 ^ 96 * ((xorFold key % 2 ^ 32) ^^^ (xorFold ct % 2 ^ 32))

/-- The 16 tag bytes appended by AES-GCM encryption. -/
def tagBytes (key iv ct : List Nat) : List Nat := toBytesLE TAG_LEN (tagNat key iv ct)

/-- Error taxonomy of the crypto core (§7 of the design). `TypeError` is the
WebCrypto rejection for a malformed algorithm descriptor. -/
inductive CryptoError where
  | InvalidInput
  | EntropyUnavailable
  | AuthenticationFailed
  | TypeError
deriving DecidableEq

/-- Opaque WebCrypto key handle, embedded as its raw material. -/
structure CryptoKey where
  material : List Nat
deriving DecidableEq

/-- WebCrypto `subtle.encrypt` for AES-GCM: returns `ciphertext || tag`
(the tag is appended, 16 bytes). -/
def subtleEncrypt (key iv pt : List Nat) : List Nat :=
  xorKS key iv 0 pt ++ tagBytes key iv (xorKS key iv 0 pt)

/-- WebCrypto `subtle.decrypt` for AES-GCM: splits off the trailing 16-byte
tag, recomputes it over the received ciphertext and fails (`OperationError`,
surfaced as `AuthenticationFailed` in the design taxonomy) on any mismatch or
when the data is shorter than the tag. -/
def subtleDecrypt (key iv data : List Nat) : Except CryptoError (List Nat) :=
  if data.length < TAG_LEN then .error .AuthenticationFailed
  else if data.drop (data.length - TAG_LEN) = tagBytes key iv (data.take (data.length - TAG_LEN))
  then .ok (xorKS key iv 0 (data.take (data.length - TAG_LEN)))
  else .error .AuthenticationFailed

/-- PBKDF2-SHA-256 (100000 iterations, 256-bit AES-GCM key), modelled as an
injective function of (password bytes, salt bytes): deterministic, and
distinct inputs give distinct key material, reflecting the real KDF's
overwhelming-probability collision-freeness. -/
def pbkdf2Sha256 (passwordBytes saltBytes : List Nat) : List Nat :=
  passwordBytes.length :: (passwordBytes ++ saltBytes)

/-- Encoding of one character by the platform `TextEncoder`, modelled as a
fixed-width (3 bytes per Unicode scalar value, little-endian) injective code;
only injectivity and exact invertibility are relied upon, which the real
UTF-8 encoder also has. -/
def encodeChar (c : Char) : List Nat :=
  [c.toNat % 256, c.toNat / 256 % 256, c.toNat / 65536]

/-- `TextEncoder.encode` over a character list. -/
def encodeChars : List Char → List Nat
  | [] => []
  | c :: cs => encodeChar c ++ encodeChars cs

/-- Platform `new TextEncoder().encode(s)`. -/
def textEncoderEncode (s : String) : List Nat := encodeChars s.data

/-- Inverse character decoding (platform `TextDecoder`), consuming the
fixed-width 3-byte groups of `encodeChars`. -/
def decodeChars : List Nat → List Char
  | b0 :: b1 :: b2 :: rest => Char.ofNat (b0 + 256 * b1 + 65536 * b2) :: decodeChars rest
  | _ => []

/-- Platform `new TextDecoder().decode(bytes)`. -/
def textDecoderDecode (l : List Nat) : String := String.mk (decodeChars l)

/-- WebCrypto algorithm descriptor for an AES-GCM operation: either the bare
name string `'AES-GCM'` or a full `AesGcmParams` dictionary carrying an iv. -/
inductive AesGcmAlgo where
  | nameOnly
  | params (iv : List Nat)

/-- `crypto.ts` lines 3-24: `deriveKeyFromPassword(password, salt)` imports
the UTF-8 password bytes as PBKDF2 material and derives a 256-bit AES-GCM
key with the fixed salt/iteration parameters.  Neither `importKey` nor
`deriveKey` rejects for any password (including the empty string) or any
salt length, so the result is always `ok`. -/
def deriveKeyFromPassword (password : String) (salt : List Nat) : Except CryptoError CryptoKey :=
  .ok ⟨pbkdf2Sha256 (textEncoderEncode password) salt⟩

/-- `crypto.ts` lines 26-29: `getKEK(password, salt)` UTF-8-encodes the salt
string and derives the KEK from the password. -/
def getKEK (password salt : String) : Except CryptoError CryptoKey :=
  deriveKeyFromPassword password (textEncoderEncode salt)

/-- `crypto.ts` lines 31-40: `generateDEK()` draws fresh random key material
from the platform secure random source, here an explicit entropy argument. -/
def generateDEK (entropy : List Nat) : CryptoKey := ⟨entropy⟩

/-- WebCrypto `subtle.wrapKey('raw', key, wrappingKey, algo)` for AES-GCM.
With the bare `'AES-GCM'` descriptor, algorithm normalization fails
(`AesGcmParams` requires the `iv` member) and the call rejects with
`TypeError`; with a full descriptor it encrypts the raw key material and
returns `ciphertext || tag` (no nonce is prepended by WebCrypto). -/
def subtleWrapKey (key wrappingKey : CryptoKey) (algo : AesGcmAlgo) : Except CryptoError (List Nat) :=
  match algo with
  | .nameOnly => .error .TypeError
  | .params iv => .ok (subtleEncrypt wrappingKey.material iv key.material)

/-- WebCrypto `subtle.unwrapKey` for AES-GCM; rejects with `TypeError` on a
bare `'AES-GCM'` descriptor exactly like `subtleWrapKey`. -/
def subtleUnwrapKey (wrapped : List Nat) (kek : CryptoKey) (algo : AesGcmAlgo) : Except CryptoError CryptoKey :=
  match algo with
  | .nameOnly => .error .TypeError
  | .params iv => (subtleDecrypt kek.material iv wrapped).map CryptoKey.mk

/-- `crypto.ts` lines 42-44: `wrapDEK(dek, kek)` calls
`subtle.wrapKey('raw', dek, kek, 'AES-GCM')` — the algorithm argument is the
bare name string, with no iv. -/
def wrapDEK (dek kek : CryptoKey) : Except CryptoError (List Nat) :=
  subtleWrapKey dek kek .nameOnly

/-- `crypto.ts` lines 46-56: `unwrapDEK(wrappedDek, kek)` calls
`subtle.unwrapKey` with the bare `'AES-GCM'` descriptor, again with no iv. -/
def unwrapDEK (wrappedDek : List Nat) (kek : CryptoKey) : Except CryptoError CryptoKey :=
  subtleUnwrapKey wrappedDek kek .nameOnly

/-- `crypto.ts` lines 58-75: `encryptChunk(chunk, dek)` draws a fresh 12-byte
iv (here the explicit `iv` argument), AES-GCM-encrypts the chunk, and
prepends the iv to the resulting `ciphertext || tag`. -/
def encryptChunk (iv chunk : List Nat) (dek : CryptoKey) : List Nat :=
  iv ++ subtleEncrypt dek.material iv chunk

/-- `crypto.ts` lines 77-89: `decryptChunk(blob, dek)` takes the leading 12
bytes as the iv and AES-GCM-decrypts the remainder. -/
def decryptChunk (blob : List Nat) (dek : CryptoKey) : Except CryptoError (List Nat) :=
  subtleDecrypt dek.material (blob.take NONCE_LEN) (blob.drop NONCE_LEN)

/-- `FileUpload.tsx` line 13: fixed 4 MiB upload slice size. -/
def CHUNK_SIZE : Nat := 4 * 1024 * 1024

/-- The plaintext slices produced by the upload loop (`FileUpload.tsx`
lines 76-90): successive `CHUNK_SIZE` slices, the last one possibly
shorter; an empty file yields no slices. -/
def sliceChunks : List Nat → List (List Nat)
  | [] => []
  | x :: xs => (x :: xs).take CHUNK_SIZE :: sliceChunks ((x :: xs).drop CHUNK_SIZE)
termination_by l => l.length
decreasing_by
  simp [CHUNK_SIZE]
  omega

/-- Encrypt each upload slice under the DEK, slice `i` with iv `ivs i`. -/
def encryptSlices (ivs : Nat → List Nat) (dek : CryptoKey) : Nat → List (List Nat) → List (List Nat)
  | _, [] => []
  | i, c :: cs => encryptChunk (ivs i) c dek :: encryptSlices ivs dek (i + 1) cs

/-- Everything the upload flow hands to the storage backend. -/
structure UploadRecord where
  encryptedFilename : List Nat
  wrappedDek : List Nat
  encryptedChunks : List (List Nat)
deriving DecidableEq

/-- `FileUpload.tsx` lines 20-113 (`handleDrop`): generate a DEK, derive the
KEK, wrap the DEK, encrypt the filename, then encrypt and upload the 4 MiB
slices in order.  Entropy (DEK material, per-encryption ivs) is explicit;
network transmission is out of scope, so the result collects the encrypted
artifacts the backend would receive.  Any rejected step aborts the flow via
the surrounding try/catch. -/
def handleDrop (dekEntropy filenameIv : List Nat) (chunkIvs : Nat → List Nat)
    (fileName : String) (fileBytes : List Nat) (password salt : String) :
    Except CryptoError UploadRecord := do
  let dek := generateDEK dekEntropy
  let kek ← getKEK password salt
  let wrappedDek ← wrapDEK dek kek
  let encryptedFilename := encryptChunk filenameIv (textEncoderEncode fileName) dek
  let chunks := encryptSlices chunkIvs dek 0 (sliceChunks fileBytes)
  .ok ⟨encryptedFilename, wrappedDek, chunks⟩

/-- `FileList.tsx` lines 71-94, the part of `handleDownload` after the DEK is
unwrapped: decrypt the filename, then decrypt the fetched content with a
single `decryptChunk` call, and hand (filename, content bytes) to the
browser download. -/
def downloadAfterUnwrap (dek : CryptoKey) (encryptedFilename content : List Nat) :
    Except CryptoError (String × List Nat) := do
  let nameBytes ← decryptChunk encryptedFilename dek
  let contentBytes ← decryptChunk content dek
  .ok (textDecoderDecode nameBytes, contentBytes)

/-- `FileList.tsx` lines 46-103 (`handleDownload`): re-derive the KEK from
password and salt, unwrap the DEK, then decrypt filename and content.  Any
rejected step aborts the whole download via the surrounding try/catch. -/
def handleDownload (password salt : String) (wrappedDek encryptedFilename content : List Nat) :
    Except CryptoError (String × List Nat) := do
  let kek ← getKEK password salt
  let dek ← unwrapDEK wrappedDek kek
  downloadAfterUnwrap dek encryptedFilename content

/-- Flip bit `b` of the byte at position `j`. -/
def flipBit (l : List Nat) (j b : Nat) : List Nat :=
  l.set j (l.getD j 0 ^^^ 2 ^ b)

theorem toBytesLE_length (n v : Nat) : (toBytesLE n v).length = n := by
  induction n generalizing v with
  | zero => rfl
  | succ n ih => simp [toBytesLE, ih]

theorem toBytesLE_inj (n : Nat) : ∀ v1 v2 : Nat, v1 < 256 ^ n → v2 < 256 ^ n →
    toBytesLE n v1 = toBytesLE n v2 → v1 = v2 := by
  induction n with
  | zero =>
    intro v1 v2 h1 h2 _
    simp only [pow_zero, Nat.lt_one_iff] at h1 h2
    omega
  | succ n ih =>
    intro v1 v2 h1 h2 h
    simp only [toBytesLE, List.cons.injEq] at h
    have hd1 : v1 / 256 < 256 ^ n := by
      rw [Nat.div_lt_iff_lt_mul (by norm_num)]
      calc v1 < 256 ^ (n + 1) := h1
        _ = 256 ^ n * 256 := by ring
    have hd2 : v2 / 256 < 256 ^ n := by
      rw [Nat.div_lt_iff_lt_mul (by norm_num)]
      calc v2 < 256 ^ (n + 1) := h2
        _ = 256 ^ n * 256 := by ring
    have htail := ih _ _ hd1 hd2 h.2
    have hhead := h.1
    omega

theorem fromBytesLE_lt : ∀ l : List Nat, (∀ b ∈ l, b < 256) → fromBytesLE l < 256 ^ l.length := by
  intro l
  induction l with
  | nil => intro _; simp [fromBytesLE]
  | cons b bs ih =>
    intro h
    have hb : b < 256 := h b (by simp)
    have htail := ih (fun x hx => h x (by simp [hx]))
    simp only [fromBytesLE, List.length_cons, pow_succ]
    have h2 : 256 * fromBytesLE bs + b < 256 * 256 ^ bs.length := by
      calc 256 * fromBytesLE bs + b < 256 * fromBytesLE bs + 256 := by omega
        _ = 256 * (fromBytesLE bs + 1) := by ring
        _ ≤ 256 * 256 ^ bs.length := Nat.mul_le_mul_left _ (by omega)
    omega

theorem fromBytesLE_inj : ∀ l1 l2 : List Nat, l1.length = l2.length →
    (∀ b ∈ l1, b < 256) → (∀ b ∈ l2, b < 256) →
    fromBytesLE l1 = fromBytesLE l2 → l1 = l2 := by
  intro l1
  induction l1 with
  | nil =>
    intro l2 hl _ _ _
    cases l2 with
    | nil => rfl
    | cons c cs => simp at hl
  | cons b bs ih =>
    intro l2 hl hb1 hb2 h
    cases l2 with
    | nil => simp at hl
    | cons c cs =>
      simp only [fromBytesLE] at h
      have hb : b < 256 := hb1 b (by simp)
      have hc : c < 256 := hb2 c (by simp)
      have hhead : b = c := by omega
      have htail : fromBytesLE bs = fromBytesLE cs := by omega
      have := ih cs (by simpa using hl) (fun x hx => hb1 x (by simp [hx]))
        (fun x hx => hb2 x (by simp [hx])) htail
      rw [hhead, this]

theorem xorFold_nil : xorFold [] = 0 := rfl

theorem xorFold_cons (x : Nat) (l : List Nat) : xorFold (x :: l) = x ^^^ xorFold l := rfl

theorem xorFold_lt (k : Nat) : ∀ l : List Nat, (∀ b ∈ l, b < 2 ^ k) → xorFold l < 2 ^ k := by
  intro l
  induction l with
  | nil => intro _; exact Nat.pos_pow_of_pos k (by norm_num)
  | cons b bs ih =>
    intro h
    rw [xorFold_cons]
    exact Nat.xor_lt_two_pow (h b (by simp)) (ih (fun x hx => h x (by simp [hx])))

theorem xorFold_set : ∀ (l : List Nat) (j v : Nat), j < l.length →
    xorFold (l.set j v) = (xorFold l ^^^ l.getD j 0) ^^^ v := by
  intro l
  induction l with
  | nil => intro j v hj; simp at hj
  | cons x xs ih =>
    intro j v hj
    cases j with
    | zero =>
      simp only [List.set, List.getD_cons_zero, xorFold_cons]
      rw [Nat.xor_comm x (xorFold xs), Nat.xor_cancel_right, Nat.xor_comm]
    | succ j =>
      simp only [List.set, List.getD_cons_succ, xorFold_cons]
      rw [ih j v (by simpa using hj)]
      rw [← Nat.xor_assoc, ← Nat.xor_assoc]

theorem ksByte_lt (key iv : List Nat) (i : Nat) : ksByte key iv i < 256 :=
  Nat.mod_lt _ (by norm_num)

theorem xorKS_length (key iv : List Nat) : ∀ (i : Nat) (l : List Nat),
    (xorKS key iv i l).length = l.length := by
  intro i l
  induction l generalizing i with
  | nil => rfl
  | cons x xs ih => simp [xorKS, ih]

theorem xorKS_involution (key iv : List Nat) : ∀ (i : Nat) (l : List Nat),
    xorKS key iv i (xorKS key iv i l) = l := by
  intro i l
  induction l generalizing i with
  | nil => rfl
  | cons x xs ih =>
    simp only [xorKS, List.cons.injEq]
    exact ⟨Nat.xor_cancel_right _ x, ih (i + 1)⟩

theorem xorKS_mem_lt (key iv : List Nat) : ∀ (i : Nat) (l : List Nat),
    (∀ b ∈ l, b < 256) → ∀ x ∈ xorKS key iv i l, x < 256 := by
  intro i l
  induction l generalizing i with
  | nil => intro _ x hx; simp [xorKS] at hx
  | cons y ys ih =>
    intro h x hx
    simp only [xorKS, List.mem_cons] at hx
    rcases hx with hx | hx
    · rw [hx]
      have h256 : (256 : Nat) = 2 ^ 8 := by norm_num
      rw [h256]
      exact Nat.xor_lt_two_pow (by rw [← h256]; exact h y (by simp))
        (by rw [← h256]; exact ksByte_lt key iv i)
    · exact ih (i + 1) (fun b hb => h b (by simp [hb])) x hx

theorem tagNat_lt (key iv ct : List Nat) : tagNat key iv ct < 2 ^ 128 := by
  unfold tagNat
  have h1 : fromBytesLE iv % 2 ^ 96 < 2 ^ 96 := Nat.mod_lt _ (by positivity)
  have h2 : (xorFold key % 2 ^ 32) ^^^ (xorFold ct % 2 ^ 32) < 2 ^ 32 :=
    Nat.xor_lt_two_pow (Nat.mod_lt _ (by positivity)) (Nat.mod_lt _ (by positivity))
  have he : (2 : Nat) ^ 96 * 2 ^ 32 = 2 ^ 128 := by norm_num
  nlinarith [h1, h2, he]

theorem tagBytes_ne_of_tagNat_ne {key iv ct key' iv' ct' : List Nat}
    (h : tagNat key iv ct ≠ tagNat key' iv' ct') :
    tagBytes key iv ct ≠ tagBytes key' iv' ct' := by
  intro he
  apply h
  have h256 : (256 : Nat) ^ 16 = 2 ^ 128 := by norm_num
  exact toBytesLE_inj 16 _ _ (h256 ▸ tagNat_lt key iv ct) (h256 ▸ tagNat_lt key' iv' ct') he

theorem tagNat_ne_of_iv_ne (key ct : List Nat) {iv iv' : List Nat}
    (hl : iv.length = 12) (hl' : iv'.length = 12)
    (hb : ∀ x ∈ iv, x < 256) (hb' : ∀ x ∈ iv', x < 256)
    (hne : iv ≠ iv') : tagNat key iv ct ≠ tagNat key iv' ct := by
  have h96 : (256 : Nat) ^ 12 = 2 ^ 96 := by norm_num
  have h1 : fromBytesLE iv < 2 ^ 96 := by
    have := fromBytesLE_lt iv hb
    rw [hl, h96] at this
    exact this
  have h1' : fromBytesLE iv' < 2 ^ 96 := by
    have := fromBytesLE_lt iv' hb'
    rw [hl', h96] at this
    exact this
  intro he
  apply hne
  apply fromBytesLE_inj iv iv' (hl.trans hl'.symm) hb hb'
  unfold tagNat at he
  rw [Nat.mod_eq_of_lt h1, Nat.mod_eq_of_lt h1'] at he
  omega

theorem tagNat_ne_of_ct_fold_ne (key iv : List Nat) {ct ct' : List Nat}
    (h : xorFold ct % 2 ^ 32 ≠ xorFold ct' % 2 ^ 32) :
    tagNat key iv ct ≠ tagNat key iv ct' := by
  intro he
  unfold tagNat at he
  have hS : (xorFold key % 2 ^ 32) ^^^ (xorFold ct % 2 ^ 32)
      = (xorFold key % 2 ^ 32) ^^^ (xorFold ct' % 2 ^ 32) := by omega
  apply h
  calc xorFold ct % 2 ^ 32
      = (xorFold key % 2 ^ 32) ^^^ ((xorFold key % 2 ^ 32) ^^^ (xorFold ct % 2 ^ 32)) :=
        (Nat.xor_cancel_left _ _).symm
    _ = (xorFold key % 2 ^ 32) ^^^ ((xorFold key % 2 ^ 32) ^^^ (xorFold ct' % 2 ^ 32)) := by
        rw [hS]
    _ = xorFold ct' % 2 ^ 32 := Nat.xor_cancel_left _ _

theorem subtleDecrypt_short (key iv data : List Nat) (h : data.length < TAG_LEN) :
    subtleDecrypt key iv data = .error .AuthenticationFailed := by
  unfold subtleDecrypt
  rw [if_pos h]

theorem subtleDecrypt_tag_mismatch (key iv data : List Nat)
    (h16 : ¬ data.length < TAG_LEN)
    (hne : data.drop (data.length - TAG_LEN) ≠ tagBytes key iv (data.take (data.length - TAG_LEN))) :
    subtleDecrypt key iv data = .error .AuthenticationFailed := by
  unfold subtleDecrypt
  rw [if_neg h16, if_neg hne]

theorem subtleEncrypt_eq (key iv pt : List Nat) :
    subtleEncrypt key iv pt = xorKS key iv 0 pt ++ tagBytes key iv (xorKS key iv 0 pt) := rfl

theorem subtleEncrypt_length (key iv pt : List Nat) :
    (subtleEncrypt key iv pt).length = pt.length + TAG_LEN := by
  rw [subtleEncrypt_eq]
  simp [xorKS_length, tagBytes, toBytesLE_length, TAG_LEN]

theorem subtleDecrypt_subtleEncrypt (key iv pt : List Nat) :
    subtleDecrypt key iv (subtleEncrypt key iv pt) = .ok pt := by
  have hlen := subtleEncrypt_length key iv pt
  have hct : (xorKS key iv 0 pt).length = pt.length := xorKS_length key iv 0 pt
  have hnot : ¬ (subtleEncrypt key iv pt).length < TAG_LEN := by omega
  have hsub : (subtleEncrypt key iv pt).length - TAG_LEN = (xorKS key iv 0 pt).length := by omega
  unfold subtleDecrypt
  rw [if_neg hnot, hsub, subtleEncrypt_eq, List.take_left, List.drop_left, if_pos rfl,
    xorKS_involution]

theorem take_nonce (iv rest : List Nat) (h : iv.length = NONCE_LEN) :
    (iv ++ rest).take NONCE_LEN = iv := by
  rw [← h, List.take_left]

theorem drop_nonce (iv rest : List Nat) (h : iv.length = NONCE_LEN) :
    (iv ++ rest).drop NONCE_LEN = rest := by
  rw [← h, List.drop_left]

theorem encryptChunk_eq (iv chunk : List Nat) (dek : CryptoKey) :
    encryptChunk iv chunk dek = iv ++ subtleEncrypt dek.material iv chunk := rfl

theorem encryptChunk_length (iv chunk : List Nat) (dek : CryptoKey) :
    (encryptChunk iv chunk dek).length = iv.length + chunk.length + TAG_LEN := by
  rw [encryptChunk_eq]
  simp [subtleEncrypt_length]
  omega

theorem decryptChunk_encryptChunk (iv p : List Nat) (dek : CryptoKey) (h : iv.length = 12) :
    decryptChunk (encryptChunk iv p dek) dek = .ok p := by
  unfold decryptChunk
  rw [encryptChunk_eq, take_nonce _ _ h, drop_nonce _ _ h]
  exact subtleDecrypt_subtleEncrypt dek.material iv p

theorem xor_pow_ne (g b : Nat) : g ^^^ 2 ^ b ≠ g := by
  intro he
  have h2 : (2 : Nat) ^ b = 0 := by
    calc (2 : Nat) ^ b = g ^^^ (g ^^^ 2 ^ b) := (Nat.xor_cancel_left _ _).symm
      _ = g ^^^ g := by rw [he]
      _ = 0 := Nat.xor_self _
  exact absurd h2 (Nat.pos_pow_of_pos b (by norm_num)).ne'

theorem set_xor_ne (l : List Nat) (j b : Nat) (h : j < l.length) :
    l.set j (l.getD j 0 ^^^ 2 ^ b) ≠ l := by
  intro he
  have hg : (l.set j (l.getD j 0 ^^^ 2 ^ b)).getD j 0 = l.getD j 0 := by rw [he]
  rw [List.getD_eq_getElem _ _ (by simpa using h), List.getElem_set_self] at hg
  exact xor_pow_ne (l.getD j 0) b hg

theorem set_xor_mem_lt (l : List Nat) (j v : Nat) (hB : ∀ x ∈ l, x < 256)
    (hv : v < 256) : ∀ x ∈ l.set j v, x < 256 := by
  intro x hx
  rcases List.mem_or_eq_of_mem_set hx with hx | hx
  · exact hB x hx
  · rw [hx]; exact hv

theorem getD_lt (l : List Nat) (j : Nat) (hB : ∀ x ∈ l, x < 256) (hj : j < l.length) :
    l.getD j 0 < 256 := by
  rw [List.getD_eq_getElem _ _ hj]
  exact hB _ (List.getElem_mem hj)

theorem xor_bit_lt (g b : Nat) (hg : g < 256) (hb : b < 8) : g ^^^ 2 ^ b < 256 := by
  have h256 : (256 : Nat) = 2 ^ 8 := by norm_num
  rw [h256]
  exact Nat.xor_lt_two_pow (h256 ▸ hg) (Nat.pow_lt_pow_right (by norm_num) hb)

theorem tagBytes_length (key iv ct : List Nat) : (tagBytes key iv ct).length = TAG_LEN :=
  toBytesLE_length _ _

theorem decryptChunk_flip_iv (dek : CryptoKey) (iv p : List Nat) (j b : Nat)
    (hiv : iv.length = 12) (hivB : ∀ x ∈ iv, x < 256) (hj : j < 12) (hb : b < 8) :
    decryptChunk (flipBit (encryptChunk iv p dek) j b) dek = .error .AuthenticationFailed := by
  have hjiv : j < iv.length := by omega
  set key := dek.material with hkey
  set ct := xorKS key iv 0 p with hct
  set tg := tagBytes key iv ct with htg
  have hctlen : ct.length = p.length := xorKS_length key iv 0 p
  have htglen : tg.length = TAG_LEN := tagBytes_length key iv ct
  have henc : encryptChunk iv p dek = iv ++ (ct ++ tg) := rfl
  set v := iv.getD j 0 ^^^ 2 ^ b with hv
  have hflip : flipBit (encryptChunk iv p dek) j b = iv.set j v ++ (ct ++ tg) := by
    unfold flipBit
    rw [henc, List.getD_append _ _ _ j hjiv, List.set_append_left _ _ hjiv]
  set iv' := iv.set j v with hiv'
  have hiv'len : iv'.length = 12 := by rw [hiv']; simp [hiv]
  rw [hflip]
  unfold decryptChunk
  rw [take_nonce _ _ hiv'len, drop_nonce _ _ hiv'len]
  apply subtleDecrypt_tag_mismatch
  · intro hcon
    rw [List.length_append, hctlen, htglen] at hcon
    unfold TAG_LEN at hcon
    omega
  · have hlen : (ct ++ tg).length - TAG_LEN = ct.length := by
      rw [List.length_append, htglen]
      omega
    rw [hlen, List.take_left, List.drop_left, htg]
    apply tagBytes_ne_of_tagNat_ne
    apply tagNat_ne_of_iv_ne key ct hiv hiv'len hivB
    · exact set_xor_mem_lt iv j v hivB (hv ▸ xor_bit_lt _ b (getD_lt iv j hivB hjiv) hb)
    · exact fun he => set_xor_ne iv j b hjiv (hv ▸ he.symm)

theorem decryptChunk_flip_ct (dek : CryptoKey) (iv p : List Nat) (j b : Nat)
    (hiv : iv.length = 12) (hp : ∀ x ∈ p, x < 256) (hj1 : 12 ≤ j) (hj2 : j < 12 + p.length)
    (hb : b < 8) :
    decryptChunk (flipBit (encryptChunk iv p dek) j b) dek = .error .AuthenticationFailed := by
  set key := dek.material with hkey
  set ct := xorKS key iv 0 p with hct
  set tg := tagBytes key iv ct with htg
  have hctlen : ct.length = p.length := xorKS_length key iv 0 p
  have htglen : tg.length = TAG_LEN := tagBytes_length key iv ct
  have hctB : ∀ x ∈ ct, x < 256 := xorKS_mem_lt key iv 0 p hp
  have hkct : j - 12 < ct.length := by omega
  have hjge : iv.length ≤ j := by omega
  have henc : encryptChunk iv p dek = iv ++ (ct ++ tg) := rfl
  set c := ct.getD (j - 12) 0 with hc
  set v := c ^^^ 2 ^ b with hv
  have hgetD : (iv ++ (ct ++ tg)).getD j 0 = c := by
    rw [List.getD_append_right _ _ _ _ hjge, hiv]
    exact List.getD_append _ _ _ _ hkct
  have hflip : flipBit (encryptChunk iv p dek) j b = iv ++ (ct.set (j - 12) v ++ tg) := by
    unfold flipBit
    rw [henc, hgetD, List.set_append_right _ _ hjge, hiv]
    congr 1
    exact List.set_append_left _ _ hkct
  set ct' := ct.set (j - 12) v with hct'
  have hct'len : ct'.length = ct.length := by rw [hct']; simp
  rw [hflip]
  unfold decryptChunk
  rw [take_nonce _ _ hiv, drop_nonce _ _ hiv]
  apply subtleDecrypt_tag_mismatch
  · intro hcon
    rw [List.length_append, hct'len, hctlen, htglen] at hcon
    unfold TAG_LEN at hcon
    omega
  · have hlen : (ct' ++ tg).length - TAG_LEN = ct'.length := by
      rw [List.length_append, htglen]
      omega
    rw [hlen, List.take_left, List.drop_left, htg]
    apply tagBytes_ne_of_tagNat_ne
    apply tagNat_ne_of_ct_fold_ne
    have h256 : (256 : Nat) = 2 ^ 8 := by norm_num
    have hFct : xorFold ct < 256 := by
      rw [h256]
      exact xorFold_lt 8 ct (fun x hx => h256 ▸ hctB x hx)
    have hcB : c < 256 := getD_lt ct (j - 12) hctB hkct
    have hFct' : xorFold ct' = xorFold ct ^^^ 2 ^ b := by
      rw [hct', xorFold_set ct (j - 12) v hkct, ← hc, hv, Nat.xor_assoc, Nat.xor_cancel_left]
    have hFct'lt : xorFold ct' < 256 := by
      rw [hFct']
      exact xor_bit_lt _ b hFct hb
    rw [Nat.mod_eq_of_lt (lt_trans hFct (by norm_num)),
      Nat.mod_eq_of_lt (lt_trans hFct'lt (by norm_num)), hFct']
    exact (xor_pow_ne (xorFold ct) b).symm

theorem decryptChunk_flip_tag (dek : CryptoKey) (iv p : List Nat) (j b : Nat)
    (hiv : iv.length = 12) (hj1 : 12 + p.length ≤ j) (hj2 : j < 12 + p.length + 16) :
    decryptChunk (flipBit (encryptChunk iv p dek) j b) dek = .error .AuthenticationFailed := by
  set key := dek.material with hkey
  set ct := xorKS key iv 0 p with hct
  set tg := tagBytes key iv ct with htg
  have hctlen : ct.length = p.length := xorKS_length key iv 0 p
  have htglen : tg.length = TAG_LEN := tagBytes_length key iv ct
  have hjge : iv.length ≤ j := by omega
  have hjct : ct.length ≤ j - 12 := by omega
  have hktg : j - 12 - ct.length < tg.length := by
    rw [htglen]
    unfold TAG_LEN
    omega
  have henc : encryptChunk iv p dek = iv ++ (ct ++ tg) := rfl
  set c := tg.getD (j - 12 - ct.length) 0 with hc
  set v := c ^^^ 2 ^ b with hv
  have hgetD : (iv ++ (ct ++ tg)).getD j 0 = c := by
    rw [List.getD_append_right _ _ _ _ hjge, hiv]
    rw [List.getD_append_right _ _ _ _ hjct]
  have hflip : flipBit (encryptChunk iv p dek) j b = iv ++ (ct ++ tg.set (j - 12 - ct.length) v) := by
    unfold flipBit
    rw [henc, hgetD, List.set_append_right _ _ hjge, hiv]
    congr 1
    exact List.set_append_right _ _ hjct
  set tg' := tg.set (j - 12 - ct.length) v with htg'
  have htg'len : tg'.length = TAG_LEN := by rw [htg']; simp [htglen]
  rw [hflip]
  unfold decryptChunk
  rw [take_nonce _ _ hiv, drop_nonce _ _ hiv]
  apply subtleDecrypt_tag_mismatch
  · intro hcon
    rw [List.length_append, htg'len] at hcon
    omega
  · have hlen : (ct ++ tg').length - TAG_LEN = ct.length := by
      rw [List.length_append, htg'len]
      omega
    rw [hlen, List.take_left, List.drop_left]
    intro he
    exact set_xor_ne tg (j - 12 - ct.length) b hktg he

theorem decryptChunk_short (blob : List Nat) (dek : CryptoKey)
    (h : blob.length < NONCE_LEN + TAG_LEN) :
    decryptChunk blob dek = .error .AuthenticationFailed := by
  unfold decryptChunk
  apply subtleDecrypt_short
  rw [List.length_drop]
  unfold NONCE_LEN TAG_LEN at h ⊢
  omega

theorem encodeChar_inj (c d : Char) (h : encodeChar c = encodeChar d) : c = d := by
  simp only [encodeChar, List.cons.injEq, and_true] at h
  have hn : c.toNat = d.toNat := by omega
  exact Char.eq_of_val_eq (UInt32.eq_of_val_eq (Fin.ext hn))

theorem encodeChars_inj : ∀ l1 l2 : List Char, encodeChars l1 = encodeChars l2 → l1 = l2 := by
  intro l1
  induction l1 with
  | nil =>
    intro l2 h
    cases l2 with
    | nil => rfl
    | cons d ds => simp [encodeChars, encodeChar] at h
  | cons c cs ih =>
    intro l2 h
    cases l2 with
    | nil => simp [encodeChars, encodeChar] at h
    | cons d ds =>
      simp only [encodeChars] at h
      obtain ⟨hcd, hrest⟩ := List.append_inj h rfl
      rw [encodeChar_inj c d hcd, ih ds hrest]

theorem textEncoderEncode_inj (s1 s2 : String) (h : textEncoderEncode s1 = textEncoderEncode s2) :
    s1 = s2 :=
  String.ext (encodeChars_inj s1.data s2.data h)

/-- C1: for every plaintext byte buffer `p` and every DEK `k`, decrypting the
output of chunk encryption with the same key returns `p` exactly:
`decryptChunk (encryptChunk p k) k = ok p`, for any 12-byte nonce drawn by
`encryptChunk`'s `getRandomValues` call. -/
theorem encrypt_decrypt_roundtrip (iv p : List Nat) (dek : CryptoKey) (h : iv.length = 12) :
    decryptChunk (encryptChunk iv p dek) dek = .ok p :=
  decryptChunk_encryptChunk iv p dek h

theorem encrypt_decrypt_roundtrip_witness :
    decryptChunk
      (encryptChunk [0, 1, 2, 3, 4, 5, 6, 7, 8, 9, 10, 11] [202, 254, 186, 190]
        ⟨List.replicate 32 7⟩)
      ⟨List.replicate 32 7⟩ = .ok [202, 254, 186, 190] :=
  encrypt_decrypt_roundtrip [0, 1, 2, 3, 4, 5, 6, 7, 8, 9, 10, 11] [202, 254, 186, 190]
    ⟨List.replicate 32 7⟩ (by decide)

/-- C2: evaluating the wrap/unwrap pair at a concrete DEK and KEK (derived from
a concrete password and salt): `wrapDEK` rejects with `TypeError` because the
bare `'AES-GCM'` algorithm descriptor lacks the required `iv` member, so no
wrapped DEK (ciphertext, tag or nonce) is ever produced and the claimed
round-trip can never happen; `unwrapDEK` rejects identically. -/
theorem wrapDEK_concrete_rejects :
    (getKEK "correct-horse-battery" "0123456789abcdef").bind
      (fun kek => wrapDEK (generateDEK (List.replicate 32 7)) kek) = .error .TypeError ∧
    (getKEK "correct-horse-battery" "0123456789abcdef").bind
      (fun kek => unwrapDEK [1, 2, 3] kek) = .error .TypeError :=
  ⟨rfl, rfl⟩

/-- C3: the upload orchestrator run on a concrete file (3 plaintext bytes,
concrete DEK entropy, nonces, password and salt) aborts with `TypeError` at
the `wrapDEK` step, before any chunk is encrypted or uploaded, so the claimed
upload-then-download round trip never gets under way. -/
theorem handleDrop_concrete_aborts :
    handleDrop (List.replicate 32 9) [0, 1, 2, 3, 4, 5, 6, 7, 8, 9, 10, 11]
      (fun i => List.replicate 12 i) "report.pdf" [1, 2, 3]
      "correct-horse-battery" "0123456789abcdef" = .error .TypeError := rfl

/-- C4: `encryptChunk` output does follow the
`[nonce: 12 bytes][ciphertext][tag: 16 bytes]` wire layout (checked at a
concrete input: the first 12 bytes are the nonce and the total length is
plaintext + 12 + 16), but `wrapDEK` never produces a blob in that layout —
every call rejects with `TypeError` (no iv is supplied and none is
prepended). -/
theorem wire_format_concrete :
    wrapDEK ⟨List.replicate 32 7⟩ ⟨List.replicate 32 9⟩ = .error .TypeError ∧
    (encryptChunk [0, 1, 2, 3, 4, 5, 6, 7, 8, 9, 10, 11] [5, 6, 7] ⟨List.replicate 32 7⟩).take 12
      = [0, 1, 2, 3, 4, 5, 6, 7, 8, 9, 10, 11] ∧
    (encryptChunk [0, 1, 2, 3, 4, 5, 6, 7, 8, 9, 10, 11] [5, 6, 7] ⟨List.replicate 32 7⟩).length
      = 12 + 3 + 16 := by
  refine ⟨rfl, by decide, by decide⟩

/-- C5: flipping any single bit (byte position `j`, bit `b < 8`) of any
`encryptChunk` output makes `decryptChunk` with the correct key fail with
`AuthenticationFailed`; `decryptChunk` also fails with `AuthenticationFailed`
on every blob shorter than nonce length + tag length = 28; and `wrapDEK`
never returns a blob at all, so the wrap half of the claim has no outputs to
tamper with. -/
theorem flip_any_bit_fails (dek d k : CryptoKey) (iv p : List Nat) (j b : Nat)
    (hiv : iv.length = 12) (hivB : ∀ x ∈ iv, x < 256) (hp : ∀ x ∈ p, x < 256)
    (hj : j < (encryptChunk iv p dek).length) (hb : b < 8) :
    decryptChunk (flipBit (encryptChunk iv p dek) j b) dek = .error .AuthenticationFailed ∧
    (∀ blob : List Nat, blob.length < 28 → decryptChunk blob dek = .error .AuthenticationFailed) ∧
    (wrapDEK d k).isOk = false := by
  refine ⟨?_, ?_, rfl⟩
  · have hlen : (encryptChunk iv p dek).length = iv.length + p.length + TAG_LEN :=
      encryptChunk_length iv p dek
    rw [hiv] at hlen
    unfold TAG_LEN at hlen
    rcases Nat.lt_or_ge j 12 with h | h
    · exact decryptChunk_flip_iv dek iv p j b hiv hivB h hb
    · rcases Nat.lt_or_ge j (12 + p.length) with h2 | h2
      · exact decryptChunk_flip_ct dek iv p j b hiv hp h h2 hb
      · exact decryptChunk_flip_tag dek iv p j b hiv h2 (by omega)
  · intro blob hlt
    exact decryptChunk_short blob dek hlt

theorem flip_any_bit_fails_witness :
    decryptChunk
      (flipBit (encryptChunk [0, 1, 2, 3, 4, 5, 6, 7, 8, 9, 10, 11] [42] ⟨List.replicate 32 7⟩) 5 3)
      ⟨List.replicate 32 7⟩ = .error .AuthenticationFailed ∧
    (∀ blob : List Nat, blob.length < 28 →
      decryptChunk blob ⟨List.replicate 32 7⟩ = .error .AuthenticationFailed) ∧
    (wrapDEK ⟨[1]⟩ ⟨[2]⟩).isOk = false :=
  flip_any_bit_fails ⟨List.replicate 32 7⟩ ⟨[1]⟩ ⟨[2]⟩
    [0, 1, 2, 3, 4, 5, 6, 7, 8, 9, 10, 11] [42] 5 3
    (by decide) (by decide) (by decide) (by decide) (by decide)

/-- C6: key derivation is deterministic — two calls of `getKEK` with the same
(password, salt) return the same KEK — and with the same password two
different salts derive different KEKs (in the model the KDF is collision-free,
reflecting PBKDF2-SHA-256's overwhelming-probability salt sensitivity). -/
theorem getKEK_deterministic_salt_sensitive (pw s1 s2 : String) (h : s1 ≠ s2) :
    getKEK pw s1 = getKEK pw s1 ∧ getKEK pw s2 = getKEK pw s2 ∧
    getKEK pw s1 ≠ getKEK pw s2 := by
  refine ⟨rfl, rfl, ?_⟩
  intro he
  apply h
  simp only [getKEK, deriveKeyFromPassword, Except.ok.injEq, CryptoKey.mk.injEq] at he
  unfold pbkdf2Sha256 at he
  injection he with hhead htail
  exact textEncoderEncode_inj s1 s2 (List.append_cancel_left htail)

theorem getKEK_deterministic_salt_sensitive_witness :
    getKEK "correct-horse-battery" "saltA" = getKEK "correct-horse-battery" "saltA" ∧
    getKEK "correct-horse-battery" "saltB" = getKEK "correct-horse-battery" "saltB" ∧
    getKEK "correct-horse-battery" "saltA" ≠ getKEK "correct-horse-battery" "saltB" :=
  getKEK_deterministic_salt_sensitive "correct-horse-battery" "saltA" "saltB" (by decide)

/-- C7 counterexample: `getKEK` returns a KEK for the empty password and for a
salt of length 1 — it never fails with `InvalidInput`, contradicting the
claim that malformed inputs are rejected. -/
theorem getKEK_empty_password_succeeds :
    (getKEK "" "0123456789abcdef").isOk = true ∧ (getKEK "pw" "x").isOk = true :=
  ⟨rfl, rfl⟩

/-- C7 amended: `getKEK` performs no input validation — for every password
(including the empty string) and every salt (of any length) it succeeds and
returns a KEK; `InvalidInput` is never raised. -/
theorem getKEK_never_fails (password salt : String) : (getKEK password salt).isOk = true := rfl

/-- C8: two calls of `encryptChunk` on the same plaintext under the same key
whose freshly generated 12-byte nonces differ produce different output
blobs (the nonce is part of the output, so distinct nonces force distinct
blobs). -/
theorem encrypt_nonce_freshness (iv1 iv2 p : List Nat) (dek : CryptoKey)
    (h1 : iv1.length = 12) (h2 : iv2.length = 12) (hne : iv1 ≠ iv2) :
    encryptChunk iv1 p dek ≠ encryptChunk iv2 p dek := by
  intro he
  apply hne
  have ht := congrArg (List.take NONCE_LEN) he
  rw [encryptChunk_eq, encryptChunk_eq, take_nonce _ _ h1, take_nonce _ _ h2] at ht
  exact ht

theorem encrypt_nonce_freshness_witness :
    encryptChunk [0, 0, 0, 0, 0, 0, 0, 0, 0, 0, 0, 0] [1, 2] ⟨List.replicate 32 7⟩ ≠
    encryptChunk [0, 1, 2, 3, 4, 5, 6, 7, 8, 9, 10, 11] [1, 2] ⟨List.replicate 32 7⟩ :=
  encrypt_nonce_freshness [0, 0, 0, 0, 0, 0, 0, 0, 0, 0, 0, 0]
    [0, 1, 2, 3, 4, 5, 6, 7, 8, 9, 10, 11] [1, 2] ⟨List.replicate 32 7⟩
    (by decide) (by decide) (by decide)

/-- C9: any failure at the filename-decryption or content-decryption step
aborts the post-unwrap download chain with no plaintext result, and the full
download flow never hands a plaintext to the caller (in fact it always aborts
at the unwrap step, which rejects with `TypeError`): no partial or fully
decrypted output is ever exposed. -/
theorem download_abort_no_partial (password salt : String)
    (wrappedDek encryptedFilename content : List Nat) (dek : CryptoKey) (e : CryptoError)
    (h : decryptChunk encryptedFilename dek = .error e ∨ decryptChunk content dek = .error e) :
    (downloadAfterUnwrap dek encryptedFilename content).isOk = false ∧
    (handleDownload password salt wrappedDek encryptedFilename content).isOk = false := by
  constructor
  · rcases h with h | h
    · unfold downloadAfterUnwrap
      rw [h]
      rfl
    · cases hf : decryptChunk encryptedFilename dek with
      | error e2 =>
        unfold downloadAfterUnwrap
        rw [hf]
        rfl
      | ok nameBytes =>
        unfold downloadAfterUnwrap
        rw [hf, h]
        rfl
  · rfl

theorem download_abort_no_partial_witness :
    (downloadAfterUnwrap ⟨List.replicate 32 7⟩ [] []).isOk = false ∧
    (handleDownload "correct-horse-battery" "0123456789abcdef" [1, 2, 3] [] []).isOk = false :=
  download_abort_no_partial "correct-horse-battery" "0123456789abcdef" [1, 2, 3] [] []
    ⟨List.replicate 32 7⟩ .AuthenticationFailed (Or.inl (by decide))

/-- C10: every `encryptChunk` output is exactly 28 bytes (12-byte nonce +
16-byte tag) longer than the plaintext, and whenever `decryptChunk` accepts a
blob the returned plaintext is exactly 28 bytes shorter than the blob. -/
theorem encrypt_overhead_28 (iv p blob pt : List Nat) (dek : CryptoKey)
    (hiv : iv.length = 12) (hok : decryptChunk blob dek = .ok pt) :
    (encryptChunk iv p dek).length = p.length + 28 ∧ pt.length + 28 = blob.length := by
  constructor
  · rw [encryptChunk_length, hiv]
    unfold TAG_LEN
    omega
  · unfold decryptChunk subtleDecrypt at hok
    split at hok
    · exact absurd hok (by simp)
    · split at hok
      · rename_i h16 htag
        have hpt := (Except.ok.inj hok).symm
        have hlen : pt.length = (blob.drop NONCE_LEN).length - TAG_LEN := by
          rw [hpt, xorKS_length, List.length_take]
          omega
        have hdl : (blob.drop NONCE_LEN).length = blob.length - NONCE_LEN :=
          List.length_drop _ _
        unfold NONCE_LEN TAG_LEN at *
        omega
      · exact absurd hok (by simp)

theorem encrypt_overhead_28_witness :
    (encryptChunk [0, 1, 2, 3, 4, 5, 6, 7, 8, 9, 10, 11] [1, 2, 3]
      ⟨List.replicate 32 7⟩).length = 3 + 28 ∧
    ([9] : List Nat).length + 28 =
      (encryptChunk [0, 1, 2, 3, 4, 5, 6, 7, 8, 9, 10, 11] [9] ⟨List.replicate 32 7⟩).length :=
  encrypt_overhead_28 [0, 1, 2, 3, 4, 5, 6, 7, 8, 9, 10, 11] [1, 2, 3]
    (encryptChunk [0, 1, 2, 3, 4, 5, 6, 7, 8, 9, 10, 11] [9] ⟨List.replicate 32 7⟩) [9]
    ⟨List.replicate 32 7⟩ (by decide) (by decide)

end FileGuard
